import Mathlib

/-!
Verification of the streaming-hash file-analysis action (`src/file_analysis/Hash.cc`).

The action owns a `HashVal` (an incremental digest primitive), a resolved
result-field index into a shared results record, and a `fed` flag.  Its three
callbacks `DeliverStream`, `Undelivered`, `EndOfFile` and the private
`Finalize` routine are embedded below as pure state transformers; a run of
the protocol is a fold of an event list over the state.

Bytes are modelled as `Nat`; a delivered chunk `(data, len)` is modelled as
the list `data[0..len)` of its bytes.
-/

namespace FileAnalysis

/-- Modelled from the spec: the external `HashVal` primitive (its source is
not part of this excerpt).  Per §2 it offers `Init`, `Feed(bytes)`,
`IsValid() → bool` and `Get() → digest`.  The digest of a byte sequence is
modelled as the sequence itself (the internal arithmetic of the digest
algorithm is out of scope per §1), so `Get` returns the accumulated bytes.
`valid` is the validity the primitive reports; `inited` records whether
`Init` has been called. -/
structure HashVal where
  valid : Bool
  inited : Bool
  acc : List Nat
deriving Repr, DecidableEq

/-- `HashVal::Init`: initializes the digest computation. -/
def HashVal.Init (h : HashVal) : HashVal :=
  { h with inited := true, acc := [] }

/-- `HashVal::IsValid`. -/
def HashVal.IsValid (h : HashVal) : Bool :=
  h.valid

/-- `HashVal::Feed`: incorporates bytes into the digest state. -/
def HashVal.Feed (h : HashVal) (data : List Nat) : HashVal :=
  { h with acc := h.acc ++ data }

/-- `HashVal::Get`: the digest of the bytes fed so far (modelled as the
byte sequence itself). -/
def HashVal.Get (h : HashVal) : List Nat :=
  h.acc

/-- The state of one `Hash` action instance together with the shared
results record it may write into.  `result_field_idx` is the field offset
resolved at construction, `hash` the exclusively owned `HashVal`, `fed`
the flag from `Hash.h`.  `results` is the hosting context's results record
(`info->GetResults(args)`), one optional value per schema field, and
`assigns` counts the `Assign` calls this action has performed on it. -/
structure ActionState where
  result_field_idx : Nat
  hash : HashVal
  fed : Bool
  results : List (Option (List Nat))
  assigns : Nat
deriving Repr, DecidableEq

/-- `RecordType::FieldOffset`: the index of `field` in the schema, or `-1`
if the field is absent. -/
def FieldOffset (schema : List String) (field : String) : Int :=
  match schema.findIdx? (fun f => f = field) with
  | some i => (i : Int)
  | none => -1

/-- The `InternalError` message raised by the constructor. -/
def configErrorMsg (field : String) : String :=
  "Missing ActionResults field: " ++ field

/-- `Hash::Hash(args, info, hv, field)`: resolves `field` against the
`ActionResults` schema; if absent, fails with a configuration error
(`reporter->InternalError`) before `hash->Init()` is reached — the error
carries back the untouched `HashVal` to witness that no `Init`/`Feed`
happened on it.  On success the owned hash state is initialized and
`fed` is set to `false`.  `record0` is the hosting context's results
record at construction time. -/
def Hash.construct (schema : List String) (field : String) (hv : HashVal)
    (record0 : List (Option (List Nat))) :
    Except (String × HashVal) ActionState :=
  let idx := FieldOffset schema field
  if idx < 0 then
    .error (configErrorMsg field, hv)
  else
    .ok { result_field_idx := idx.toNat
          hash := hv.Init
          fed := false
          results := record0
          assigns := 0 }

/-- `Hash::DeliverStream(data, len)`: declines (returns `false`, no
action) when the hash state is invalid; otherwise sets `fed` once a
non-empty chunk arrives, feeds the bytes, and returns `true`. -/
def DeliverStream (s : ActionState) (data : List Nat) : Bool × ActionState :=
  if !s.hash.IsValid then
    (false, s)
  else
    let fed := if !s.fed then decide (0 < data.length) else s.fed
    (true, { s with fed := fed, hash := s.hash.Feed data })

/-- `Hash::Undelivered(offset, len)`: always returns `false`, no effect. -/
def Undelivered (s : ActionState) (off len : Nat) : Bool × ActionState :=
  (false, s)

/-- `Hash::Finalize()`: no-op when the hash state is invalid or `fed` is
false; otherwise reads the digest and assigns it into the results record
at `result_field_idx`. -/
def Finalize (s : ActionState) : ActionState :=
  if !s.hash.IsValid || !s.fed then
    s
  else
    { s with results := s.results.set s.result_field_idx (some s.hash.Get)
             assigns := s.assigns + 1 }

/-- `Hash::EndOfFile()`: triggers `Finalize` and returns `false`. -/
def EndOfFile (s : ActionState) : Bool × ActionState :=
  (false, Finalize s)

/-- One notification arriving at the action.  `deliver` and `undelivered`
and `eof` are the dispatcher's callbacks; `invalidate` models the owned
hash primitive reporting itself invalid from that point on (an external
failure of the digest backend, observed through `IsValid`). -/
inductive Event where
  | deliver (data : List Nat)
  | undelivered (off len : Nat)
  | eof
  | invalidate
deriving Repr, DecidableEq

/-- The state after one event. -/
def step (s : ActionState) : Event → ActionState
  | .deliver data => (DeliverStream s data).2
  | .undelivered off len => (Undelivered s off len).2
  | .eof => (EndOfFile s).2
  | .invalidate => { s with hash := { s.hash with valid := false } }

/-- The state after a sequence of events. -/
def run (s : ActionState) (es : List Event) : ActionState :=
  es.foldl step s

/-- Number of `eof` events in a sequence. -/
def countEof : List Event → Nat
  | [] => 0
  | e :: es => (if e = Event.eof then 1 else 0) + countEof es

/-- Concrete sample instance used by witnesses: schema `["md5", "sha1"]`,
field `"md5"`, a fresh valid hash state, an empty two-field record. -/
def sampleHv : HashVal :=
  { valid := true, inited := false, acc := [] }

/-- The action state `Hash.construct ["md5", "sha1"] "md5" sampleHv
[none, none]` produces. -/
def sampleS0 : ActionState :=
  { result_field_idx := 0
    hash := { valid := true, inited := true, acc := [] }
    fed := false
    results := [none, none]
    assigns := 0 }

section Lemmas

/-- Any step from a state whose hash is invalid leaves the state fixed. -/
theorem step_invalid (s : ActionState) (e : Event) (h : s.hash.valid = false) :
    step s e = s := by
  cases e with
  | deliver data =>
      simp [step, DeliverStream, HashVal.IsValid, h]
  | undelivered off len =>
      simp [step, Undelivered]
  | eof =>
      simp [step, EndOfFile, Finalize, HashVal.IsValid, h]
  | invalidate =>
      simp [step, ← h]

/-- A whole run from an invalid-hash state leaves the state fixed. -/
theorem run_invalid (s : ActionState) (es : List Event) (h : s.hash.valid = false) :
    run s es = s := by
  induction es with
  | nil => rfl
  | cons e es ih =>
      show run (step s e) es = s
      rw [step_invalid s e h, ih]

/-- Delivering a list of chunks to a valid-hash state appends their
concatenation to the digest accumulator and or-updates `fed` with
whether any chunk is non-empty; nothing else changes. -/
theorem run_deliver_valid (cs : List (List Nat)) (s : ActionState)
    (h : s.hash.valid = true) :
    run s (cs.map Event.deliver) =
      { s with
          hash := { s.hash with acc := s.hash.acc ++ cs.flatten }
          fed := s.fed || cs.any (fun c => decide (0 < c.length)) } := by
  induction cs generalizing s with
  | nil =>
      simp [run]
  | cons c cs ih =>
      show run (step s (Event.deliver c)) (cs.map Event.deliver) = _
      have hstep : step s (Event.deliver c) =
          { s with
              fed := s.fed || decide (0 < c.length)
              hash := s.hash.Feed c } := by
        simp [step, DeliverStream, HashVal.IsValid, h]
        cases hf : s.fed <;> simp
      rw [hstep]
      rw [ih _ (by simpa [HashVal.Feed] using h)]
      simp [HashVal.Feed, Bool.or_assoc]

/-- Successful construction fully determines the initial action state. -/
theorem construct_ok (schema : List String) (field : String) (hv : HashVal)
    (record0 : List (Option (List Nat))) (s0 : ActionState)
    (hc : Hash.construct schema field hv record0 = .ok s0) :
    s0 = { result_field_idx := (FieldOffset schema field).toNat
           hash := hv.Init
           fed := false
           results := record0
           assigns := 0 } := by
  by_cases hidx : FieldOffset schema field < 0
  · simp [Hash.construct, hidx] at hc
  · simp [Hash.construct, hidx] at hc
    exact hc.symm

/-- Running with `fed = true` keeps `fed = true` after every step. -/
theorem step_fed_mono (s : ActionState) (e : Event) (h : s.fed = true) :
    (step s e).fed = true := by
  cases e with
  | deliver data =>
      cases hv : s.hash.valid with
      | false => simpa [step, DeliverStream, HashVal.IsValid, hv] using h
      | true => simp [step, DeliverStream, HashVal.IsValid, hv, h]
  | undelivered off len =>
      simpa [step, Undelivered] using h
  | eof =>
      cases hv : s.hash.valid with
      | false => simpa [step, EndOfFile, Finalize, HashVal.IsValid, hv] using h
      | true => simpa [step, EndOfFile, Finalize, HashVal.IsValid, hv, h] using h
  | invalidate =>
      simpa [step] using h

/-- `assigns` never decreases across a step, and grows by at most the
number of `eof` events: non-`eof` steps keep it, an `eof` step adds at
most one. -/
theorem step_assigns_le (s : ActionState) (e : Event) :
    (step s e).assigns ≤ s.assigns + (if e = Event.eof then 1 else 0) := by
  cases e with
  | deliver data =>
      cases hv : s.hash.valid with
      | false => simp [step, DeliverStream, HashVal.IsValid, hv]
      | true => simp [step, DeliverStream, HashVal.IsValid, hv]
  | undelivered off len =>
      simp [step, Undelivered]
  | eof =>
      cases hv : s.hash.valid with
      | false => simp [step, EndOfFile, Finalize, HashVal.IsValid, hv]
      | true =>
          cases hf : s.fed with
          | false => simp [step, EndOfFile, Finalize, HashVal.IsValid, hv, hf]
          | true => simp [step, EndOfFile, Finalize, HashVal.IsValid, hv, hf]
  | invalidate =>
      simp [step]

/-- Over a whole run, `assigns` grows by at most the number of `eof`
events in the sequence. -/
theorem run_assigns_le (s : ActionState) (es : List Event) :
    (run s es).assigns ≤ s.assigns + countEof es := by
  induction es generalizing s with
  | nil => simp [run, countEof]
  | cons e es ih =>
      show (run (step s e) es).assigns ≤ _
      refine le_trans (ih (step s e)) ?_
      have h1 := step_assigns_le s e
      by_cases he : e = Event.eof
      · rw [countEof, if_pos he]
        rw [if_pos he] at h1
        omega
      · rw [countEof, if_neg he]
        rw [if_neg he] at h1
        omega

end Lemmas

section Claims

/-- C1: for every sequence of non-empty chunks delivered via
`DeliverStream` before `EndOfFile`, while the hash state stays valid
throughout, the digest assigned into the results record at `EndOfFile`
is the digest of the exact concatenation of the chunks in delivery
order. -/
theorem C1_digest_of_concatenation
    (schema : List String) (field : String) (hv : HashVal)
    (record0 : List (Option (List Nat))) (s0 : ActionState)
    (cs : List (List Nat))
    (hc : Hash.construct schema field hv record0 = .ok s0)
    (hval : hv.valid = true)
    (hne : ∀ c ∈ cs, c ≠ [])
    (hcs : cs ≠ []) :
    (run s0 (cs.map Event.deliver ++ [Event.eof])).results =
      record0.set s0.result_field_idx (some cs.flatten) := by
  have hs0 := construct_ok schema field hv record0 s0 hc
  subst hs0
  rw [run, List.foldl_append, ← run, ← run]
  rw [run_deliver_valid cs _ (by simpa [HashVal.Init] using hval)]
  have hany : cs.any (fun c => decide (0 < c.length)) = true := by
    cases cs with
    | nil => exact absurd rfl hcs
    | cons c cs =>
        have : c ≠ [] := hne c (List.mem_cons_self c cs)
        simp [List.any_cons]
        left
        exact List.length_pos.mpr this
  simp only [run, List.foldl_cons, List.foldl_nil, step, EndOfFile, Finalize]
  simp [HashVal.IsValid, HashVal.Init, hval, hany, HashVal.Get]

/-- C1 witness: delivering `[1, 2]` then `[3]` and ending the file
assigns the digest of `[1, 2, 3]` into field 0. -/
theorem C1_digest_of_concatenation_witness :
    Hash.construct ["md5", "sha1"] "md5" sampleHv [none, none] = .ok sampleS0 ∧
    (run sampleS0 ([[1, 2], [3]].map Event.deliver ++ [Event.eof])).results =
      [none, none].set sampleS0.result_field_idx (some [1, 2, 3]) := by
  refine ⟨by rfl, ?_⟩
  exact C1_digest_of_concatenation ["md5", "sha1"] "md5" sampleHv [none, none]
    sampleS0 [[1, 2], [3]] (by rfl) (by rfl) (by decide) (by decide)

/-- C2 counterexample: the claim says the action assigns its
results-record field at most once for every call sequence, but after
delivering one byte, a second `EndOfFile` call assigns a second time
(`fed` and the hash validity are still true, and the action keeps no
terminal flag), so the assign count reaches 2. -/
theorem C2_counterexample :
    ¬ (run sampleS0 [Event.deliver [1], Event.eof, Event.eof]).assigns ≤ 1 := by
  decide

/-- C2 (amended): assignments happen only inside `EndOfFile`'s handling —
`DeliverStream` and `Undelivered` never change the assign count or the
results record; an `EndOfFile` call assigns exactly when `fed` is true and
the hash state reports itself valid at that moment; and for every call
sequence containing at most one `EndOfFile`, the action assigns its
results-record field at most once. -/
theorem C2_assign_only_in_eof :
    (∀ s data, ((DeliverStream s data).2).assigns = s.assigns ∧
        ((DeliverStream s data).2).results = s.results) ∧
    (∀ s off len, ((Undelivered s off len).2).assigns = s.assigns ∧
        ((Undelivered s off len).2).results = s.results) ∧
    (∀ s : ActionState, ((EndOfFile s).2).assigns =
        (if s.hash.IsValid && s.fed then s.assigns + 1 else s.assigns)) ∧
    (∀ s : ActionState, (s.hash.IsValid && s.fed) = false →
        (EndOfFile s).2 = s) ∧
    (∀ (schema : List String) (field : String) (hv : HashVal)
        (record0 : List (Option (List Nat))) (s0 : ActionState)
        (es : List Event),
      Hash.construct schema field hv record0 = .ok s0 →
      countEof es ≤ 1 →
      (run s0 es).assigns ≤ 1) := by
  refine ⟨?_, ?_, ?_, ?_, ?_⟩
  · intro s data
    cases hv : s.hash.valid with
    | false => simp [DeliverStream, HashVal.IsValid, hv]
    | true => simp [DeliverStream, HashVal.IsValid, hv]
  · intro s off len
    simp [Undelivered]
  · intro s
    cases hv : s.hash.valid with
    | false => simp [EndOfFile, Finalize, HashVal.IsValid, hv]
    | true =>
        cases hf : s.fed with
        | false => simp [EndOfFile, Finalize, HashVal.IsValid, hv, hf]
        | true => simp [EndOfFile, Finalize, HashVal.IsValid, hv, hf]
  · intro s hcond
    rw [Bool.and_eq_false_iff] at hcond
    cases hcond with
    | inl h => simp [EndOfFile, Finalize, HashVal.IsValid, HashVal.IsValid] at h ⊢; simp [h]
    | inr h => simp [EndOfFile, Finalize, h]
  · intro schema field hv record0 s0 es hc hle
    have hs0 := construct_ok schema field hv record0 s0 hc
    have h := run_assigns_le s0 es
    rw [hs0] at h
    simp only [show ({ result_field_idx := (FieldOffset schema field).toNat
                       hash := hv.Init
                       fed := false
                       results := record0
                       assigns := 0 } : ActionState).assigns = 0 from rfl,
               Nat.zero_add] at h
    rw [hs0]
    exact le_trans h hle

/-- C2 witness for the amended claim: a sequence with a single `EndOfFile`
assigns at most once. -/
theorem C2_assign_only_in_eof_witness :
    (run sampleS0 [Event.deliver [1], Event.eof]).assigns ≤ 1 := by
  exact C2_assign_only_in_eof.2.2.2.2 ["md5", "sha1"] "md5" sampleHv [none, none]
    sampleS0 [Event.deliver [1], Event.eof] (by rfl) (by decide)

/-- C3: constructing with a result field name absent from the results
schema fails with the configuration error, carrying back the hash state
untouched (so no `Init`/`Feed` was made on it), and produces no
instance; constructing with a present field name succeeds, initializes
the owned hash state (`Init` called: `inited` set, accumulator reset),
and sets `fed` to `false`. -/
theorem C3_construction
    (schema : List String) (field : String) (hv : HashVal)
    (record0 : List (Option (List Nat))) :
    (field ∉ schema →
      Hash.construct schema field hv record0 = .error (configErrorMsg field, hv)) ∧
    (field ∈ schema →
      Hash.construct schema field hv record0 =
        .ok { result_field_idx := (FieldOffset schema field).toNat
              hash := hv.Init
              fed := false
              results := record0
              assigns := 0 } ∧
      (hv.Init).inited = true ∧ (hv.Init).acc = []) := by
  constructor
  · intro habs
    have hnone : schema.findIdx? (fun f => f = field) = none := by
      rw [List.findIdx?_eq_none_iff]
      intro f hf
      simp only [decide_eq_false_iff_not]
      intro heq
      exact habs (heq ▸ hf)
    simp [Hash.construct, FieldOffset, hnone]
  · intro hmem
    have hsome : ∃ i, schema.findIdx? (fun f => f = field) = some i := by
      cases hfi : schema.findIdx? (fun f => f = field) with
      | none =>
          rw [List.findIdx?_eq_none_iff] at hfi
          have := hfi field hmem
          simp at this
      | some i => exact ⟨i, rfl⟩
    obtain ⟨i, hi⟩ := hsome
    refine ⟨?_, rfl, rfl⟩
    simp [Hash.construct, FieldOffset, hi]

/-- C3 witness: `"bogus"` is absent from the schema and construction
fails carrying the untouched hash state; `"md5"` is present and
construction succeeds with an initialized hash and `fed = false`. -/
theorem C3_construction_witness :
    Hash.construct ["md5", "sha1"] "bogus" sampleHv [none, none] =
      .error (configErrorMsg "bogus", sampleHv) ∧
    Hash.construct ["md5", "sha1"] "md5" sampleHv [none, none] =
      .ok { result_field_idx := (FieldOffset ["md5", "sha1"] "md5").toNat
            hash := sampleHv.Init
            fed := false
            results := [none, none]
            assigns := 0 } := by
  constructor
  · exact (C3_construction ["md5", "sha1"] "bogus" sampleHv [none, none]).1
      (by decide)
  · exact ((C3_construction ["md5", "sha1"] "md5" sampleHv [none, none]).2
      (by decide)).1

/-- C4: once the hash state reports invalid, every further run of events
feeds no more bytes into the hash accumulator, never assigns the
results-record field, and leaves the results record unchanged. -/
theorem C4_invalid_absorbing (s : ActionState) (es : List Event)
    (h : s.hash.valid = false) :
    (run s es).hash.acc = s.hash.acc ∧
    (run s es).results = s.results ∧
    (run s es).assigns = s.assigns := by
  rw [run_invalid s es h]
  exact ⟨rfl, rfl, rfl⟩

/-- C4 witness: from an invalidated state that had already been fed a
byte, delivering more data and ending the file changes neither the
accumulator nor the results record nor the assign count. -/
theorem C4_invalid_absorbing_witness :
    let s : ActionState :=
      { result_field_idx := 0
        hash := { valid := false, inited := true, acc := [7] }
        fed := true
        results := [none, none]
        assigns := 0 }
    (run s [Event.deliver [8], Event.eof]).hash.acc = s.hash.acc ∧
    (run s [Event.deliver [8], Event.eof]).results = s.results ∧
    (run s [Event.deliver [8], Event.eof]).assigns = s.assigns := by
  exact C4_invalid_absorbing _ [Event.deliver [8], Event.eof] (by rfl)

/-- C5: if zero chunks are delivered before `EndOfFile`, or every
delivered chunk has zero length, then `fed` remains false, no field
assignment occurs, and the results record is unchanged. -/
theorem C5_empty_chunks_no_assign
    (schema : List String) (field : String) (hv : HashVal)
    (record0 : List (Option (List Nat))) (s0 : ActionState)
    (cs : List (List Nat))
    (hc : Hash.construct schema field hv record0 = .ok s0)
    (hz : ∀ c ∈ cs, c = []) :
    (run s0 (cs.map Event.deliver ++ [Event.eof])).fed = false ∧
    (run s0 (cs.map Event.deliver ++ [Event.eof])).assigns = 0 ∧
    (run s0 (cs.map Event.deliver ++ [Event.eof])).results = record0 := by
  have hs0 := construct_ok schema field hv record0 s0 hc
  subst hs0
  cases hval : hv.valid with
  | false =>
      rw [run_invalid _ _ (by simpa [HashVal.Init] using hval)]
      exact ⟨rfl, rfl, rfl⟩
  | true =>
      rw [run, List.foldl_append, ← run, ← run]
      rw [run_deliver_valid cs _ (by simpa [HashVal.Init] using hval)]
      have hany : cs.any (fun c => decide (0 < c.length)) = false := by
        rw [List.any_eq_false]
        intro c hmem
        rw [hz c hmem]
        simp
      simp only [run, List.foldl_cons, List.foldl_nil, step, EndOfFile, Finalize]
      simp [HashVal.IsValid, HashVal.Init, hany]

/-- C5 witness: delivering three empty chunks then ending the file
leaves `fed` false, performs no assignment, and keeps the record. -/
theorem C5_empty_chunks_no_assign_witness :
    (run sampleS0 ([[], [], []].map Event.deliver ++ [Event.eof])).fed = false ∧
    (run sampleS0 ([[], [], []].map Event.deliver ++ [Event.eof])).assigns = 0 ∧
    (run sampleS0 ([[], [], []].map Event.deliver ++ [Event.eof])).results =
      [none, none] := by
  exact C5_empty_chunks_no_assign ["md5", "sha1"] "md5" sampleHv [none, none]
    sampleS0 [[], [], []] (by rfl) (by decide)

/-- C6: every `EndOfFile` call on an instance whose hash state is valid
and whose `fed` flag is true assigns the current digest into the results
record; in particular a second `EndOfFile` call assigns a second time —
the instance keeps no terminal flag. -/
theorem C6_eof_assigns_again (s : ActionState)
    (hval : s.hash.valid = true) (hfed : s.fed = true) :
    ((EndOfFile s).2).assigns = s.assigns + 1 ∧
    ((EndOfFile s).2).results =
      s.results.set s.result_field_idx (some s.hash.Get) ∧
    ((EndOfFile ((EndOfFile s).2)).2).assigns = s.assigns + 2 := by
  refine ⟨?_, ?_, ?_⟩ <;>
    simp [EndOfFile, Finalize, HashVal.IsValid, hval, hfed]

/-- C6 witness: on a fed, valid instance each of two `EndOfFile` calls
assigns, reaching an assign count of 2. -/
theorem C6_eof_assigns_again_witness :
    let s : ActionState :=
      { result_field_idx := 0
        hash := { valid := true, inited := true, acc := [1, 2, 3] }
        fed := true
        results := [none, none]
        assigns := 0 }
    ((EndOfFile s).2).assigns = s.assigns + 1 ∧
    ((EndOfFile s).2).results =
      s.results.set s.result_field_idx (some s.hash.Get) ∧
    ((EndOfFile ((EndOfFile s).2)).2).assigns = s.assigns + 2 := by
  exact C6_eof_assigns_again _ (by rfl) (by rfl)

/-- C7: `DeliverStream` on an instance whose hash state is invalid takes
no action — the state (hash, `fed`, results record) is returned
unchanged — and returns `false`. -/
theorem C7_deliver_invalid_noop (s : ActionState) (data : List Nat)
    (h : s.hash.IsValid = false) :
    DeliverStream s data = (false, s) := by
  simp [DeliverStream, h]

/-- C7 witness: delivering to an invalidated instance returns `false`
and the state unchanged. -/
theorem C7_deliver_invalid_noop_witness :
    let s : ActionState :=
      { result_field_idx := 0
        hash := { valid := false, inited := true, acc := [7] }
        fed := true
        results := [none, none]
        assigns := 0 }
    DeliverStream s [9] = (false, s) := by
  exact C7_deliver_invalid_noop _ [9] (by rfl)

/-- C8: `Undelivered` always returns `false` and leaves `fed`, the hash
state and the results record unchanged — in particular it does not
invalidate the hash on a gap. -/
theorem C8_undelivered_frame (s : ActionState) (off len : Nat) :
    Undelivered s off len = (false, s) := by
  rfl

/-- C9: `EndOfFile` triggers `Finalize` and returns `false`,
unconditionally — regardless of the hash state's validity or `fed`. -/
theorem C9_eof_finalizes_returns_false (s : ActionState) :
    EndOfFile s = (false, Finalize s) := by
  rfl

/-- C10: the `fed` flag is monotone — once true, no subsequent event
(chunk delivery, gap, end-of-file, or hash invalidation) ever resets it
to false. -/
theorem C10_fed_monotone (s : ActionState) (es : List Event)
    (h : s.fed = true) :
    (run s es).fed = true := by
  induction es generalizing s with
  | nil => exact h
  | cons e es ih =>
      show (run (step s e) es).fed = true
      exact ih (step s e) (step_fed_mono s e h)

/-- C10 witness: a fed instance stays fed across a delivery, a gap, an
invalidation and an end-of-file. -/
theorem C10_fed_monotone_witness :
    (run { result_field_idx := 0
           hash := { valid := true, inited := true, acc := [1] }
           fed := true
           results := [none, none]
           assigns := 0 }
       [Event.deliver [], Event.undelivered 0 5, Event.invalidate,
        Event.eof]).fed = true := by
  exact C10_fed_monotone _ _ (by rfl)

end Claims

end FileAnalysis
